import Mathlib

/-!
Verification of the array / two-pointer exercises in
`src/dsa/week1_arrays_strings_two_pointers/`.

Python integers are unbounded, so they are modelled by `Int`; Python lists of
integers by `List Int`; list indexing `h[i]` (always in bounds in this code) by
`List.getD i 0`.  Each `while left < right` loop is modelled as a structurally
recursive function with an explicit fuel argument: every iteration shrinks
`right - left` by exactly one, so fuel `h.length` (strictly larger than the
initial `right - left = h.length - 1`) makes the fuel-exhaustion branch
unreachable and the function agree with the source loop.
-/

namespace Week1

/-! ## container_with_most_water.py -/

/-- The area of the container formed by lines `i < j`:
`width * min(height[i], height[j])` with `width = j - i`. -/
def area (height : List Int) (i j : Nat) : Int :=
  ((j : Int) - (i : Int)) * min (height.getD i 0) (height.getD j 0)

/-- The `while left < right` loop of `max_area`, fuelled. -/
def maxAreaGo (height : List Int) : Nat → Nat → Nat → Int → Int
  | 0, _, _, acc => acc
  | fuel + 1, left, right, acc =>
    if left < right then
      let acc' := max acc (area height left right)
      if height.getD left 0 < height.getD right 0 then
        maxAreaGo height fuel (left + 1) right acc'
      else
        maxAreaGo height fuel left (right - 1) acc'
    else acc

/-- `max_area` from `container_with_most_water.py`: two-pointer scan. -/
def max_area (height : List Int) : Int :=
  if height.length < 2 then 0
  else maxAreaGo height height.length 0 (height.length - 1) 0

/-- `max_area_brute_force`: nested loops
`for i in range(n): for j in range(i+1, n)` maximising the area. -/
def max_area_brute_force (height : List Int) : Int :=
  (List.range height.length).foldl
    (fun acc i =>
      (List.range' (i + 1) (height.length - (i + 1))).foldl
        (fun acc2 j => max acc2 (area height i j)) acc)
    0

/-! ## trapping_rain_water.py -/

/-- The `while left < right` loop of `trap`, fuelled.  Each iteration first
updates both running maxima, then accumulates on the side with the smaller
running maximum and advances that pointer. -/
def trapGo (height : List Int) : Nat → Nat → Nat → Int → Int → Int → Int
  | 0, _, _, _, _, water => water
  | fuel + 1, left, right, leftMax, rightMax, water =>
    if left < right then
      let lm := max leftMax (height.getD left 0)
      let rm := max rightMax (height.getD right 0)
      if lm < rm then
        trapGo height fuel (left + 1) right lm rm (water + (lm - height.getD left 0))
      else
        trapGo height fuel left (right - 1) lm rm (water + (rm - height.getD right 0))
    else water

/-- `trap` from `trapping_rain_water.py`: two-pointer O(1)-space scan. -/
def trap (height : List Int) : Int :=
  if height.length < 3 then 0
  else trapGo height height.length 0 (height.length - 1) 0 0 0

/-- Running-maximum scan: `runMax a [x1, x2, ...] = [a, max a x1, ...]`,
the list of partial maxima.  `buildLeftMax` below uses it to model the
`left_max` array of `trap_dp`. -/
def runMax (a : Int) : List Int → List Int
  | [] => [a]
  | x :: xs => a :: runMax (max a x) xs

/-- The `left_max` array of `trap_dp`:
`left_max[0] = height[0]`, `left_max[i] = max(left_max[i-1], height[i])`. -/
def buildLeftMax (height : List Int) : List Int :=
  match height with
  | [] => []
  | x :: xs => runMax x xs

/-- The `right_max` array of `trap_dp`:
`right_max[n-1] = height[n-1]`, `right_max[i] = max(right_max[i+1], height[i])`,
i.e. the left-max scan of the reversed list, reversed back. -/
def buildRightMax (height : List Int) : List Int :=
  (buildLeftMax height.reverse).reverse

/-- `trap_dp` from `trapping_rain_water.py`: precompute the two arrays, then
sum `min(left_max[i], right_max[i]) - height[i]`. -/
def trap_dp (height : List Int) : Int :=
  if height.length < 3 then 0
  else
    ((List.range height.length).map (fun i =>
      min ((buildLeftMax height).getD i 0) ((buildRightMax height).getD i 0)
        - height.getD i 0)).sum

/-- Maximum of the first `k` elements (and `0`); for a list of non-negative
integers and `0 < k` this is exactly the "maximum height at or left of
position `k-1`" of the specification. -/
def prefMax (height : List Int) (k : Nat) : Int :=
  (height.take k).foldl max 0

/-- Maximum of the elements from position `k` on (and `0`); for a list of
non-negative integers and `k < length` this is exactly the "maximum height at
or right of position `k`" of the specification. -/
def sufMax (height : List Int) (k : Nat) : Int :=
  (height.drop k).foldl max 0

/-- Water retained at position `p` according to the specification:
`min(max height at or left of p, max height at or right of p) - height[p]`. -/
def waterAt (height : List Int) (p : Nat) : Int :=
  min (prefMax height (p + 1)) (sufMax height p) - height.getD p 0

/-- Specification total: the sum of `waterAt` over all positions. -/
def waterTotal (height : List Int) : Int :=
  ((List.range height.length).map (waterAt height)).sum

/-! ## product_of_array_except_self.py -/

/-- First pass of `product_except_self`: left to right,
`result[i] = prefix; prefix *= nums[i]`. -/
def pass1 : List Int → Int → List Int
  | [], _ => []
  | x :: xs, p => p :: pass1 xs (p * x)

/-- Second pass of `product_except_self`, expressed on the reversed lists:
walking `i` from `n-1` down to `0`, `result[i] *= suffix; suffix *= nums[i]`. -/
def pass2 : List Int → List Int → Int → List Int
  | r :: rs, x :: xs, s => (r * s) :: pass2 rs xs (s * x)
  | _, _, _ => []

/-- `product_except_self`: prefix pass, then suffix pass right-to-left. -/
def product_except_self (nums : List Int) : List Int :=
  (pass2 (pass1 nums 1).reverse nums.reverse 1).reverse

/-- Running-product scan: `runProd a [x1, x2, ...] = [a, a*x1, a*x1*x2, ...]`. -/
def runProd (a : Int) : List Int → List Int
  | [] => [a]
  | x :: xs => a :: runProd (a * x) xs

/-- The `prefix` array of `product_except_self_with_arrays`:
`prefix[0] = 1`, `prefix[i] = prefix[i-1] * nums[i-1]`. -/
def prefixArr (nums : List Int) : List Int :=
  match nums with
  | [] => []
  | _ :: _ => runProd 1 nums.dropLast

/-- The `suffix` array of `product_except_self_with_arrays`:
`suffix[n-1] = 1`, `suffix[i] = suffix[i+1] * nums[i+1]`, i.e. the running
product over the reversed tail, reversed back. -/
def suffixArr (nums : List Int) : List Int :=
  match nums with
  | [] => []
  | _ :: _ => (runProd 1 (nums.drop 1).reverse).reverse

/-- `product_except_self_with_arrays`: `result[i] = prefix[i] * suffix[i]`. -/
def product_except_self_with_arrays (nums : List Int) : List Int :=
  List.zipWith (fun a b => a * b) (prefixArr nums) (suffixArr nums)

/-! ## two_sum.py -/

/-- The scan of `two_sum`.  `seen` models the Python dict (value ↦ index,
later insertions shadowing earlier ones), `i` is the index of the head of the
remaining list.  On finding `target - x` in `seen`, return
`[seen[target - x], i]`; otherwise record `x ↦ i` and continue. -/
def twoSumGo (target : Int) : List Int → (Int → Option Nat) → Nat → List Nat
  | [], _, _ => []
  | x :: xs, seen, i =>
    match seen (target - x) with
    | some j => [j, i]
    | none => twoSumGo target xs (fun y => if y = x then some i else seen y) (i + 1)

/-- `two_sum` from `two_sum.py`: hashmap single pass. -/
def two_sum (nums : List Int) (target : Int) : List Nat :=
  twoSumGo target nums (fun _ => none) 0

/-! ## move_zeroes.py -/

/-- Loop body of the first pass of `move_zeroes`: the state is the (mutated)
list together with `write_pos`; a non-zero read at `r` is written at
`write_pos`, which then advances. -/
def mzStep (st : List Int × Nat) (r : Nat) : List Int × Nat :=
  if st.1.getD r 0 ≠ 0 then (st.1.set st.2 (st.1.getD r 0), st.2 + 1) else st

/-- First pass of `move_zeroes` over the read positions `0..n-1`. -/
def mzPass1 (nums : List Int) : List Int × Nat :=
  (List.range nums.length).foldl mzStep (nums, 0)

/-- Second pass of `move_zeroes`: write `0` at every position from `write_pos`
to the end. -/
def mzPass2 (st : List Int × Nat) : List Int :=
  (List.range' st.2 (st.1.length - st.2)).foldl (fun cur i => cur.set i 0) st.1

/-- `move_zeroes` from `move_zeroes.py`; the in-place mutation is modelled as
the function from the initial to the final contents of the list. -/
def move_zeroes (nums : List Int) : List Int :=
  mzPass2 (mzPass1 nums)

/-! ## Generic helper lemmas about folds keeping a running maximum -/

/-- The initial accumulator bounds a `max`-accumulating fold from below. -/
theorem le_foldlMax (g : Nat → Int) :
    ∀ (l : List Nat) (a : Int), a ≤ l.foldl (fun acc x => max acc (g x)) a := by
  intro l
  induction l with
  | nil => intro a; exact le_refl a
  | cons x xs ih =>
    intro a
    exact le_trans (le_max_left a (g x)) (ih (max a (g x)))

/-- Every visited value bounds a `max`-accumulating fold from below. -/
theorem foldlMax_le_of_mem (g : Nat → Int) :
    ∀ (l : List Nat) (a : Int) (x : Nat), x ∈ l →
      g x ≤ l.foldl (fun acc y => max acc (g y)) a := by
  intro l
  induction l with
  | nil => intro a x hx; cases hx
  | cons y ys ih =>
    intro a x hx
    rcases List.mem_cons.mp hx with h | h
    · subst h
      exact le_trans (le_max_right a (g x)) (le_foldlMax g ys (max a (g x)))
    · exact ih (max a (g y)) x h

/-- A `max`-accumulating fold returns its initial accumulator or one of the
visited values. -/
theorem foldlMax_eq_init_or_mem (g : Nat → Int) :
    ∀ (l : List Nat) (a : Int),
      l.foldl (fun acc x => max acc (g x)) a = a ∨
        ∃ x ∈ l, l.foldl (fun acc y => max acc (g y)) a = g x := by
  intro l
  induction l with
  | nil => intro a; exact Or.inl rfl
  | cons y ys ih =>
    intro a
    rcases ih (max a (g y)) with h | ⟨x, hx, hfx⟩
    · rcases max_choice a (g y) with hm | hm
      · exact Or.inl (by rw [List.foldl_cons, h, hm])
      · exact Or.inr ⟨y, List.mem_cons_self y ys, by rw [List.foldl_cons, h, hm]⟩
    · exact Or.inr ⟨x, List.mem_cons_of_mem y hx, hfx⟩

/-! ## Characterisation of `max_area_brute_force` -/

/-- The inner loop of the brute force, as a function of its accumulator. -/
def bfInner (height : List Int) (i : Nat) (acc : Int) : Int :=
  (List.range' (i + 1) (height.length - (i + 1))).foldl
    (fun acc2 j => max acc2 (area height i j)) acc

theorem bfInner_ge_init (height : List Int) (i : Nat) (acc : Int) :
    acc ≤ bfInner height i acc :=
  le_foldlMax _ _ acc

theorem max_area_brute_force_eq_foldl (height : List Int) :
    max_area_brute_force height = (List.range height.length).foldl
      (fun acc i => bfInner height i acc) 0 := rfl

/-- The initial accumulator bounds the outer brute-force fold from below. -/
theorem bf_foldl_ge_init (height : List Int) :
    ∀ (l : List Nat) (a : Int), a ≤ l.foldl (fun acc k => bfInner height k acc) a := by
  intro l
  induction l with
  | nil => intro a; exact le_refl a
  | cons y ys ih =>
    intro a
    exact le_trans (bfInner_ge_init height y a) (ih (bfInner height y a))

/-- Every pair's area bounds the outer brute-force fold from below. -/
theorem bf_foldl_ge (height : List Int) :
    ∀ (l : List Nat) (a : Int) (i j : Nat), i ∈ l → i < j → j < height.length →
      area height i j ≤ l.foldl (fun acc k => bfInner height k acc) a := by
  intro l
  induction l with
  | nil => intro a i j hi; cases hi
  | cons y ys ih =>
    intro a i j hi hij hj
    rcases List.mem_cons.mp hi with h | h
    · subst h
      refine le_trans ?_ (bf_foldl_ge_init height ys (bfInner height i a))
      refine foldlMax_le_of_mem (area height i) _ a j ?_
      exact List.mem_range'_1.mpr ⟨hij, by omega⟩
    · exact ih (bfInner height y a) i j h hij hj

/-- The outer brute-force fold returns its initial accumulator or the area of
some pair `i < j < n`. -/
theorem bf_foldl_eq_init_or_pair (height : List Int) :
    ∀ (l : List Nat) (a : Int), (∀ x ∈ l, x < height.length) →
      l.foldl (fun acc k => bfInner height k acc) a = a ∨
        ∃ i j, i < j ∧ j < height.length ∧
          l.foldl (fun acc k => bfInner height k acc) a = area height i j := by
  intro l
  induction l with
  | nil => intro a _; exact Or.inl rfl
  | cons y ys ih =>
    intro a hl
    rcases ih (bfInner height y a) (fun x hx => hl x (List.mem_cons_of_mem y hx)) with
      h | ⟨i, j, hij, hj, hfx⟩
    · rcases foldlMax_eq_init_or_mem (area height y)
        (List.range' (y + 1) (height.length - (y + 1))) a with h2 | ⟨j, hj, hfj⟩
      · exact Or.inl (by rw [List.foldl_cons] at *; rw [h]; exact h2)
      · refine Or.inr ⟨y, j, ?_, ?_, ?_⟩
        · exact (List.mem_range'_1.mp hj).1
        · have := (List.mem_range'_1.mp hj).2
          have hy := hl y (List.mem_cons_self y ys)
          omega
        · rw [List.foldl_cons] at *; rw [h]; exact hfj
    · exact Or.inr ⟨i, j, hij, hj, hfx⟩

/-! ## Correctness of the two-pointer `max_area` scan -/

/-- Out-of-range reads default to `0`; in-range reads are list elements, so
every read of a list of non-negative integers is non-negative. -/
theorem getD_nonneg (height : List Int) (hnn : ∀ x ∈ height, 0 ≤ x) (k : Nat) :
    0 ≤ height.getD k 0 := by
  by_cases hk : k < height.length
  · rw [List.getD_eq_getElem height 0 hk]
    exact hnn _ (List.getElem_mem hk)
  · rw [List.getD_eq_default height 0 (by omega)]

theorem area_nonneg (height : List Int) (hnn : ∀ x ∈ height, 0 ≤ x)
    (i j : Nat) (hij : i < j) : 0 ≤ area height i j := by
  refine mul_nonneg ?_ (le_min (getD_nonneg height hnn i) (getD_nonneg height hnn j))
  have : (i : Int) < (j : Int) := by exact_mod_cast hij
  omega

/-- When the left line is the shorter one, pulling the right line inward can
only shrink the area: the width shrinks and the limiting height stays bounded
by the left line. -/
theorem area_le_of_move_left (height : List Int) (hnn : ∀ x ∈ height, 0 ≤ x)
    {left right j : Nat} (hmove : height.getD left 0 < height.getD right 0)
    (hlj : left < j) (hjr : j ≤ right) :
    area height left j ≤ area height left right := by
  unfold area
  rw [min_eq_left (le_of_lt hmove)]
  refine mul_le_mul ?_ (min_le_left _ _)
    (le_min (getD_nonneg height hnn left) (getD_nonneg height hnn j)) ?_
  · have : (j : Int) ≤ (right : Int) := by exact_mod_cast hjr
    omega
  · have : (left : Int) < (right : Int) := by exact_mod_cast lt_of_lt_of_le hlj hjr
    omega

/-- Symmetrically, when the right line is the shorter one. -/
theorem area_le_of_move_right (height : List Int) (hnn : ∀ x ∈ height, 0 ≤ x)
    {left right i : Nat} (hmove : height.getD right 0 ≤ height.getD left 0)
    (hli : left ≤ i) (hir : i < right) :
    area height i right ≤ area height left right := by
  unfold area
  rw [min_eq_right hmove]
  refine mul_le_mul ?_ (min_le_right _ _)
    (le_min (getD_nonneg height hnn i) (getD_nonneg height hnn right)) ?_
  · have : (left : Int) ≤ (i : Int) := by exact_mod_cast hli
    omega
  · have : (left : Int) < (right : Int) := by exact_mod_cast lt_of_le_of_lt hli hir
    omega

/-- Loop invariant proof for `maxAreaGo`: if every pair already outside the
window `[left, right]` is dominated by `acc`, and `acc` is `0` or an attained
area, then the final result dominates every pair and is `0` or an attained
area. -/
theorem maxAreaGo_spec (height : List Int) (hnn : ∀ x ∈ height, 0 ≤ x) :
    ∀ (fuel left right : Nat) (acc : Int),
      right - left < fuel → right < height.length →
      (∀ i j, i < j → j < height.length → (i < left ∨ right < j) →
        area height i j ≤ acc) →
      (acc = 0 ∨ ∃ i j, i < j ∧ j < height.length ∧ acc = area height i j) →
      (∀ i j, i < j → j < height.length →
        area height i j ≤ maxAreaGo height fuel left right acc) ∧
      (maxAreaGo height fuel left right acc = 0 ∨
        ∃ i j, i < j ∧ j < height.length ∧
          maxAreaGo height fuel left right acc = area height i j) := by
  intro fuel
  induction fuel with
  | zero => intro left right acc hfuel; omega
  | succ fuel ih =>
    intro left right acc hfuel hrn hinv hatt
    by_cases hlr : left < right
    · by_cases hmove : height.getD left 0 < height.getD right 0
      · simp only [maxAreaGo, if_pos hlr, if_pos hmove]
        refine ih (left + 1) right (max acc (area height left right))
          (by omega) hrn ?_ ?_
        · intro i j hij hj hcase
          rcases hcase with hi | hj'
          · by_cases hil : i < left
            · exact le_trans (hinv i j hij hj (Or.inl hil)) (le_max_left _ _)
            · have hieq : i = left := by omega
              subst hieq
              by_cases hjr : j ≤ right
              · exact le_trans (area_le_of_move_left height hnn hmove hij hjr)
                  (le_max_right _ _)
              · exact le_trans (hinv i j hij hj (Or.inr (by omega)))
                  (le_max_left _ _)
          · exact le_trans (hinv i j hij hj (Or.inr hj')) (le_max_left _ _)
        · rcases max_choice acc (area height left right) with hm | hm
          · rw [hm]; exact hatt
          · exact Or.inr ⟨left, right, hlr, hrn, hm⟩
      · simp only [maxAreaGo, if_pos hlr, if_neg hmove]
        refine ih left (right - 1) (max acc (area height left right))
          (by omega) (by omega) ?_ ?_
        · intro i j hij hj hcase
          rcases hcase with hi | hj'
          · exact le_trans (hinv i j hij hj (Or.inl hi)) (le_max_left _ _)
          · by_cases hjr : right < j
            · exact le_trans (hinv i j hij hj (Or.inr hjr)) (le_max_left _ _)
            · have hjeq : j = right := by omega
              subst hjeq
              by_cases hil : i < left
              · exact le_trans (hinv i j hij hj (Or.inl hil)) (le_max_left _ _)
              · exact le_trans
                  (area_le_of_move_right height hnn (by omega) (by omega) hij)
                  (le_max_right _ _)
        · rcases max_choice acc (area height left right) with hm | hm
          · rw [hm]; exact hatt
          · exact Or.inr ⟨left, right, hlr, hrn, hm⟩
    · simp only [maxAreaGo, if_neg hlr]
      refine ⟨?_, hatt⟩
      intro i j hij hj
      refine hinv i j hij hj ?_
      by_cases hil : i < left
      · exact Or.inl hil
      · exact Or.inr (by omega)

/-- `max_area` dominates every pair's area and is itself an attained area. -/
theorem max_area_spec (height : List Int) (hlen : 2 ≤ height.length)
    (hnn : ∀ x ∈ height, 0 ≤ x) :
    (∀ i j, i < j → j < height.length → area height i j ≤ max_area height) ∧
    ∃ i j, i < j ∧ j < height.length ∧ max_area height = area height i j := by
  have hguard : ¬ height.length < 2 := by omega
  have hrun : max_area height =
      maxAreaGo height height.length 0 (height.length - 1) 0 := by
    simp [max_area, hguard]
  have hspec := maxAreaGo_spec height hnn height.length 0 (height.length - 1) 0
    (by omega) (by omega)
    (by intro i j hij hj hcase; rcases hcase with hi | hj' <;> omega)
    (Or.inl rfl)
  rw [hrun]
  refine ⟨hspec.1, ?_⟩
  rcases hspec.2 with hzero | hpair
  · refine ⟨0, height.length - 1, by omega, by omega, ?_⟩
    have hub := hspec.1 0 (height.length - 1) (by omega) (by omega)
    have hnonneg := area_nonneg height hnn 0 (height.length - 1) (by omega)
    omega
  · exact hpair

/-- `max_area_brute_force` dominates every pair's area and is `0` or an
attained area. -/
theorem max_area_brute_force_spec (height : List Int) :
    (∀ i j, i < j → j < height.length →
      area height i j ≤ max_area_brute_force height) ∧
    (max_area_brute_force height = 0 ∨
      ∃ i j, i < j ∧ j < height.length ∧
        max_area_brute_force height = area height i j) := by
  rw [max_area_brute_force_eq_foldl]
  constructor
  · intro i j hij hj
    exact bf_foldl_ge height (List.range height.length) 0 i j
      (List.mem_range.mpr (by omega)) hij hj
  · exact bf_foldl_eq_init_or_pair height (List.range height.length) 0
      (fun x hx => List.mem_range.mp hx)

/-! ## Claim C1 -/

/-- C1: for every sequence of non-negative integers of length ≥ 2,
`max_area height` equals the maximum of `(j - i) * min(height[i], height[j])`
over all index pairs `i < j`: it equals the brute-force all-pairs maximum
`max_area_brute_force height`, it dominates every pair's area, and it is
attained at some pair. -/
theorem c1_max_area_eq_brute_force (height : List Int) (hlen : 2 ≤ height.length)
    (hnn : ∀ x ∈ height, 0 ≤ x) :
    max_area height = max_area_brute_force height ∧
    (∀ i j, i < j → j < height.length → area height i j ≤ max_area height) ∧
    ∃ i j, i < j ∧ j < height.length ∧ max_area height = area height i j := by
  obtain ⟨hubA, i₀, j₀, hij₀, hj₀, hattA⟩ := max_area_spec height hlen hnn
  obtain ⟨hubB, hattB⟩ := max_area_brute_force_spec height
  refine ⟨?_, hubA, i₀, j₀, hij₀, hj₀, hattA⟩
  refine le_antisymm ?_ ?_
  · rw [hattA]; exact hubB i₀ j₀ hij₀ hj₀
  · rcases hattB with hzero | ⟨i, j, hij, hj, hatt⟩
    · rw [hzero]
      have h1 := hubA 0 (height.length - 1) (by omega) (by omega)
      have h2 := area_nonneg height hnn 0 (height.length - 1) (by omega)
      omega
    · rw [hatt]; exact hubA i j hij hj

/-- Witness for C1 at the first test vector of the source file. -/
theorem c1_max_area_eq_brute_force_witness :
    max_area [1, 8, 6, 2, 5, 4, 8, 3, 7] =
      max_area_brute_force [1, 8, 6, 2, 5, 4, 8, 3, 7] ∧
    (∀ i j, i < j → j < ([1, 8, 6, 2, 5, 4, 8, 3, 7] : List Int).length →
      area [1, 8, 6, 2, 5, 4, 8, 3, 7] i j ≤ max_area [1, 8, 6, 2, 5, 4, 8, 3, 7]) ∧
    ∃ i j, i < j ∧ j < ([1, 8, 6, 2, 5, 4, 8, 3, 7] : List Int).length ∧
      max_area [1, 8, 6, 2, 5, 4, 8, 3, 7] = area [1, 8, 6, 2, 5, 4, 8, 3, 7] i j :=
  c1_max_area_eq_brute_force [1, 8, 6, 2, 5, 4, 8, 3, 7] (by decide)
    (by intro x hx; fin_cases hx <;> decide)

/-! ## Claim C9 -/

/-- C9: precondition-violating short inputs yield defined defaults: an input
of length < 2 makes `max_area` return 0, an input of length < 3 makes `trap`
return 0. -/
theorem c9_short_inputs_return_zero (height : List Int) :
    (height.length < 2 → max_area height = 0) ∧
    (height.length < 3 → trap height = 0) := by
  constructor
  · intro hl; simp [max_area, hl]
  · intro hl; simp [trap, hl]

/-- Witness for C9 on the singleton `[5]` and the pair `[5, 2]`. -/
theorem c9_short_inputs_return_zero_witness :
    max_area [5] = 0 ∧ trap [5, 2] = 0 :=
  ⟨(c9_short_inputs_return_zero [5]).1 (by decide),
   (c9_short_inputs_return_zero [5, 2]).2 (by decide)⟩

/-! ## Claim C2, counterexample part -/

/-- Counterexample to C2 as stated: `trap` and `trap_dp` disagree on the
all-negative input `[-1, -2, -3]` (`trap` clamps its running maxima at `0`
and returns `5`; `trap_dp` seeds its arrays with the actual heights and
returns `0`), so the two functions are not equal on every list of integers. -/
theorem c2_counterexample : trap [-1, -2, -3] ≠ trap_dp [-1, -2, -3] := by decide

/-! ## Prefix and suffix maxima -/

theorem le_foldl_max (l : List Int) : ∀ a : Int, a ≤ l.foldl max a := by
  induction l with
  | nil => intro a; exact le_refl a
  | cons x xs ih => intro a; exact le_trans (le_max_left a x) (ih (max a x))

theorem foldl_max_shift (l : List Int) :
    ∀ a b : Int, l.foldl max (max a b) = max a (l.foldl max b) := by
  induction l with
  | nil => intro a b; rfl
  | cons x xs ih =>
    intro a b
    have h1 : max (max a b) x = max a (max b x) := max_assoc a b x
    rw [List.foldl_cons, List.foldl_cons, h1, ih a (max b x)]

theorem foldl_max_reverse (l : List Int) :
    ∀ a : Int, l.reverse.foldl max a = l.foldl max a := by
  induction l with
  | nil => intro a; rfl
  | cons x xs ih =>
    intro a
    simp only [List.reverse_cons, List.foldl_append, List.foldl_cons,
      List.foldl_nil, ih]
    have h1 : max a x = max x a := max_comm a x
    rw [h1, foldl_max_shift xs x a]
    exact max_comm _ _

theorem prefMax_zero (height : List Int) : prefMax height 0 = 0 := rfl

theorem prefMax_nonneg (height : List Int) (k : Nat) : 0 ≤ prefMax height k :=
  le_foldl_max _ 0

theorem sufMax_nonneg (height : List Int) (k : Nat) : 0 ≤ sufMax height k :=
  le_foldl_max _ 0

theorem sufMax_length (height : List Int) : sufMax height height.length = 0 := by
  unfold sufMax
  rw [List.drop_length]
  rfl

theorem prefMax_succ (height : List Int) {k : Nat} (hk : k < height.length) :
    prefMax height (k + 1) = max (prefMax height k) (height.getD k 0) := by
  unfold prefMax
  rw [List.take_succ, List.getElem?_eq_getElem hk, Option.toList_some,
    List.foldl_append, List.getD_eq_getElem height 0 hk]
  rfl

theorem sufMax_succ (height : List Int) {k : Nat} (hk : k < height.length) :
    sufMax height k = max (height.getD k 0) (sufMax height (k + 1)) := by
  unfold sufMax
  rw [List.drop_eq_getElem_cons hk, List.foldl_cons,
    ← List.getD_eq_getElem height 0 hk]
  have h1 : max (0 : Int) (height.getD k 0) = max (height.getD k 0) 0 :=
    max_comm _ _
  rw [h1, foldl_max_shift]

theorem prefMax_le_succ (height : List Int) (k : Nat) :
    prefMax height k ≤ prefMax height (k + 1) := by
  by_cases hk : k < height.length
  · rw [prefMax_succ height hk]; exact le_max_left _ _
  · unfold prefMax
    rw [List.take_of_length_le (by omega), List.take_of_length_le (by omega)]

theorem prefMax_mono (height : List Int) {k k' : Nat} (hkk : k ≤ k') :
    prefMax height k ≤ prefMax height k' := by
  induction k' with
  | zero => have : k = 0 := by omega
            subst this; exact le_refl _
  | succ m ih =>
    by_cases hm : k ≤ m
    · exact le_trans (ih hm) (prefMax_le_succ height m)
    · have : k = m + 1 := by omega
      subst this; exact le_refl _

theorem sufMax_succ_le (height : List Int) (k : Nat) :
    sufMax height (k + 1) ≤ sufMax height k := by
  by_cases hk : k < height.length
  · rw [sufMax_succ height hk]; exact le_max_right _ _
  · unfold sufMax
    rw [@List.drop_eq_nil_of_le Int height (k + 1) (by omega),
      @List.drop_eq_nil_of_le Int height k (by omega)]

theorem sufMax_anti (height : List Int) {k k' : Nat} (hkk : k ≤ k') :
    sufMax height k' ≤ sufMax height k := by
  induction k' with
  | zero => have : k = 0 := by omega
            subst this; exact le_refl _
  | succ m ih =>
    by_cases hm : k ≤ m
    · exact le_trans (sufMax_succ_le height m) (ih hm)
    · have : k = m + 1 := by omega
      subst this; exact le_refl _

theorem getD_le_prefMax (height : List Int) {k : Nat} (hk : k < height.length) :
    height.getD k 0 ≤ prefMax height (k + 1) := by
  rw [prefMax_succ height hk]; exact le_max_right _ _

theorem getD_le_sufMax (height : List Int) {k : Nat} (hk : k < height.length) :
    height.getD k 0 ≤ sufMax height k := by
  rw [sufMax_succ height hk]; exact le_max_left _ _

theorem waterAt_nonneg (height : List Int) {p : Nat} (hp : p < height.length) :
    0 ≤ waterAt height p := by
  unfold waterAt
  have := le_min (getD_le_prefMax height hp) (getD_le_sufMax height hp)
  omega

/-- At a position that is not strictly dominated on both sides by the rest of
the list (the situation of the final pointer position of the scan), no water
is retained. -/
theorem waterAt_eq_zero_at_meet (height : List Int) (hnn : ∀ x ∈ height, 0 ≤ x)
    {p : Nat} (hp : p < height.length)
    (hG : p = 0 ∨ prefMax height p < sufMax height p)
    (hG' : p = height.length - 1 ∨
      sufMax height (p + 1) ≤ prefMax height (p + 1)) :
    waterAt height p = 0 := by
  unfold waterAt
  have hge := le_min (getD_le_prefMax height hp) (getD_le_sufMax height hp)
  have hle : min (prefMax height (p + 1)) (sufMax height p) ≤ height.getD p 0 := by
    by_contra hlt
    push_neg at hlt
    have hL : height.getD p 0 < prefMax height (p + 1) :=
      lt_of_lt_of_le hlt (min_le_left _ _)
    have hS : height.getD p 0 < sufMax height p :=
      lt_of_lt_of_le hlt (min_le_right _ _)
    have hLp : prefMax height (p + 1) = prefMax height p := by
      rcases max_choice (prefMax height p) (height.getD p 0) with hc | hc
      · rw [prefMax_succ height hp, hc]
      · rw [prefMax_succ height hp] at hL
        rw [hc] at hL
        omega
    have hSp : sufMax height p = sufMax height (p + 1) := by
      rcases max_choice (height.getD p 0) (sufMax height (p + 1)) with hc | hc
      · rw [sufMax_succ height hp] at hS
        rw [hc] at hS
        omega
      · rw [sufMax_succ height hp, hc]
    rcases hG with h0 | hpre
    · subst h0
      rw [hLp, prefMax_zero] at hL
      have := getD_nonneg height hnn 0
      omega
    · rcases hG' with hlast | hsuf
      · have hpn : p + 1 = height.length := by omega
        rw [hSp, hpn, sufMax_length] at hS
        have := getD_nonneg height hnn p
        omega
      · rw [hLp] at hsuf
        rw [hSp] at hpre
        omega
  omega

/-! ## Correctness of the two-pointer `trap` scan -/

/-- Loop invariant proof for `trapGo`.  The running maxima are sandwiched
between the true maxima strictly outside and weakly inside the window, and
each past pointer move left a one-sided domination fact (`hG`, `hG'`); the
loop then adds exactly the specified water of every position of the window. -/
theorem trapGo_spec (height : List Int) (hnn : ∀ x ∈ height, 0 ≤ x) :
    ∀ (fuel left right : Nat) (leftMax rightMax water : Int),
      right - left < fuel → right < height.length →
      prefMax height left ≤ leftMax → leftMax ≤ prefMax height (left + 1) →
      sufMax height (right + 1) ≤ rightMax → rightMax ≤ sufMax height right →
      (left = 0 ∨ prefMax height left < sufMax height left) →
      (right = height.length - 1 ∨
        sufMax height (right + 1) ≤ prefMax height (right + 1)) →
      trapGo height fuel left right leftMax rightMax water =
        water + ((List.range' left (right + 1 - left)).map (waterAt height)).sum := by
  intro fuel
  induction fuel with
  | zero => intro left right leftMax rightMax water hfuel; omega
  | succ fuel ih =>
    intro left right leftMax rightMax water hfuel hrn h3 h4 h5 h6 hG hG'
    by_cases hlr : left < right
    · have hln : left < height.length := by omega
      have hlm : max leftMax (height.getD left 0) = prefMax height (left + 1) := by
        refine le_antisymm (max_le h4 (getD_le_prefMax height hln)) ?_
        rw [prefMax_succ height hln]
        exact max_le_max h3 (le_refl _)
      have hrm : max rightMax (height.getD right 0) = sufMax height right := by
        refine le_antisymm (max_le h6 (getD_le_sufMax height hrn)) ?_
        rw [sufMax_succ height hrn]
        rw [max_comm rightMax (height.getD right 0)]
        exact max_le_max (le_refl _) h5
      by_cases hmove :
          max leftMax (height.getD left 0) < max rightMax (height.getD right 0)
      · simp only [trapGo, if_pos hlr, if_pos hmove]
        rw [ih (left + 1) right _ _ _ (by omega) hrn
          (le_of_eq hlm.symm) (by rw [hlm]; exact prefMax_mono height (by omega))
          (le_trans h5 (le_max_left _ _)) (le_of_eq hrm) ?_ hG']
        · have hwl : waterAt height left =
              max leftMax (height.getD left 0) - height.getD left 0 := by
            unfold waterAt
            rw [min_eq_left, hlm]
            calc prefMax height (left + 1)
                = max leftMax (height.getD left 0) := hlm.symm
              _ ≤ max rightMax (height.getD right 0) := le_of_lt hmove
              _ = sufMax height right := hrm
              _ ≤ sufMax height left := sufMax_anti height (by omega)
          have hsplit : right + 1 - left = (right - left) + 1 := by omega
          rw [hsplit, List.range'_succ, List.map_cons, List.sum_cons, hwl]
          have hlen2 : right + 1 - (left + 1) = right - left := by omega
          rw [hlen2]
          ring
        · refine Or.inr ?_
          calc prefMax height (left + 1)
              = max leftMax (height.getD left 0) := hlm.symm
            _ < max rightMax (height.getD right 0) := hmove
            _ = sufMax height right := hrm
            _ ≤ sufMax height (left + 1) := sufMax_anti height (by omega)
      · simp only [trapGo, if_pos hlr, if_neg hmove]
        push_neg at hmove
        have hr1 : right - 1 + 1 = right := by omega
        rw [ih left (right - 1) _ _ _ (by omega) (by omega)
          (le_trans h3 (le_max_left _ _)) (le_of_eq hlm) ?_ ?_ hG ?_]
        · have hwr : waterAt height right =
              max rightMax (height.getD right 0) - height.getD right 0 := by
            unfold waterAt
            rw [min_eq_right, hrm]
            calc sufMax height right
                = max rightMax (height.getD right 0) := hrm.symm
              _ ≤ max leftMax (height.getD left 0) := hmove
              _ = prefMax height (left + 1) := hlm
              _ ≤ prefMax height (right + 1) := prefMax_mono height (by omega)
          have hsplit : right + 1 - left = (right - left) + 1 := by omega
          rw [hsplit, List.range'_1_concat, List.map_append, List.sum_append,
            List.map_singleton, List.sum_singleton]
          have hend : left + (right - left) = right := by omega
          rw [hend, hwr]
          have hlen2 : right - 1 + 1 - left = right - left := by omega
          rw [hlen2]
          ring
        · rw [hr1]; exact le_of_eq hrm.symm
        · exact le_trans hrm.le (sufMax_anti height (by omega))
        · refine Or.inr ?_
          rw [hr1]
          calc sufMax height right
              = max rightMax (height.getD right 0) := hrm.symm
            _ ≤ max leftMax (height.getD left 0) := hmove
            _ = prefMax height (left + 1) := hlm
            _ ≤ prefMax height right := prefMax_mono height (by omega)
    · simp only [trapGo, if_neg hlr]
      by_cases heq : left = right
      · subst heq
        have hone : left + 1 - left = 1 := by omega
        rw [hone, List.range'_succ, List.range'_zero, List.map_cons,
          List.map_nil, List.sum_cons, List.sum_nil]
        rw [waterAt_eq_zero_at_meet height hnn (by omega) hG hG']
        ring
      · have hzero : right + 1 - left = 0 := by omega
        rw [hzero, List.range'_zero, List.map_nil, List.sum_nil]
        ring

/-- `trap` computes the specification sum `waterTotal` on non-negative
inputs. -/
theorem trap_eq_waterTotal (height : List Int) (hnn : ∀ x ∈ height, 0 ≤ x) :
    trap height = waterTotal height := by
  by_cases hg : height.length < 3
  · have htrap : trap height = 0 := by simp [trap, hg]
    rw [htrap]
    have hfirst : 0 < height.length → waterAt height 0 = 0 := by
      intro hpos
      unfold waterAt
      have h1 : prefMax height 1 = height.getD 0 0 := by
        rw [prefMax_succ height hpos, prefMax_zero,
          max_eq_right (getD_nonneg height hnn 0)]
      rw [h1, min_eq_left (getD_le_sufMax height hpos)]
      ring
    have hlast : ∀ p, p + 1 = height.length → waterAt height p = 0 := by
      intro p hp
      unfold waterAt
      have h1 : sufMax height p = height.getD p 0 := by
        rw [sufMax_succ height (by omega), hp, sufMax_length,
          max_eq_left (getD_nonneg height hnn p)]
      rw [h1, min_eq_right (getD_le_prefMax height (by omega))]
      ring
    have hn : height.length = 0 ∨ height.length = 1 ∨ height.length = 2 := by
      omega
    unfold waterTotal
    rcases hn with hn | hn | hn <;> rw [hn]
    · rfl
    · show 0 = waterAt height 0 + 0
      rw [hfirst (by omega)]
      ring
    · show 0 = waterAt height 0 + (waterAt height 1 + 0)
      rw [hfirst (by omega), hlast 1 (by omega)]
      ring
  · have htrap : trap height =
        trapGo height height.length 0 (height.length - 1) 0 0 0 := by
      simp [trap, hg]
    rw [htrap, trapGo_spec height hnn height.length 0 (height.length - 1) 0 0 0
      (by omega) (by omega)
      (le_of_eq (prefMax_zero height)) (prefMax_nonneg height 1)
      (by rw [show height.length - 1 + 1 = height.length by omega]
          exact le_of_eq (sufMax_length height))
      (sufMax_nonneg height _)
      (Or.inl rfl) (Or.inl rfl)]
    rw [show height.length - 1 + 1 - 0 = height.length by omega]
    rw [← List.range_eq_range']
    unfold waterTotal
    ring

theorem waterTotal_nonneg (height : List Int) : 0 ≤ waterTotal height := by
  unfold waterTotal
  refine List.sum_nonneg ?_
  intro x hx
  obtain ⟨p, hp, hpx⟩ := List.mem_map.mp hx
  rw [← hpx]
  exact waterAt_nonneg height (List.mem_range.mp hp)

/-! ## Claim C3 -/

/-- C3: for every sequence of non-negative integers, `trap height` equals the
sum over all positions `p` of
`min(max height at or left of p, max height at or right of p) - height[p]`
(the fold-with-0 maxima used in `prefMax`/`sufMax` coincide with the true
maxima on non-negative lists), and the returned total is never negative. -/
theorem c3_trap_eq_water_sum (height : List Int) (hnn : ∀ x ∈ height, 0 ≤ x) :
    trap height = waterTotal height ∧ 0 ≤ trap height := by
  have h := trap_eq_waterTotal height hnn
  exact ⟨h, by rw [h]; exact waterTotal_nonneg height⟩

/-- Witness for C3 at the first test vector of the source file. -/
theorem c3_trap_eq_water_sum_witness :
    trap [0, 1, 0, 2, 1, 0, 1, 3, 2, 1, 2, 1] =
      waterTotal [0, 1, 0, 2, 1, 0, 1, 3, 2, 1, 2, 1] ∧
    0 ≤ trap [0, 1, 0, 2, 1, 0, 1, 3, 2, 1, 2, 1] :=
  c3_trap_eq_water_sum [0, 1, 0, 2, 1, 0, 1, 3, 2, 1, 2, 1] (by decide)

/-! ## `trap_dp` agrees with the specification sum on non-negative inputs -/

theorem runMax_length (xs : List Int) : ∀ a : Int, (runMax a xs).length = xs.length + 1 := by
  induction xs with
  | nil => intro a; rfl
  | cons x xs ih => intro a; simp [runMax, ih]

theorem runMax_getD (xs : List Int) :
    ∀ (a : Int) (i : Nat), i ≤ xs.length →
      (runMax a xs).getD i 0 = (xs.take i).foldl max a := by
  induction xs with
  | nil =>
    intro a i hi
    have h0 : i = 0 := Nat.le_zero.mp (by simpa using hi)
    subst h0; rfl
  | cons x xs ih =>
    intro a i hi
    cases i with
    | zero => rfl
    | succ i =>
      show (runMax (max a x) xs).getD i 0 = _
      rw [ih (max a x) i (by simpa using hi)]
      rfl

theorem buildLeftMax_length (height : List Int) :
    (buildLeftMax height).length = height.length := by
  cases height with
  | nil => rfl
  | cons x xs => show (runMax x xs).length = xs.length + 1
                 exact runMax_length xs x

theorem buildLeftMax_getD (height : List Int) (hnn : ∀ x ∈ height, 0 ≤ x)
    {i : Nat} (hi : i < height.length) :
    (buildLeftMax height).getD i 0 = prefMax height (i + 1) := by
  cases height with
  | nil => simp at hi
  | cons x xs =>
    show (runMax x xs).getD i 0 = prefMax (x :: xs) (i + 1)
    rw [runMax_getD xs x i (by simpa using Nat.lt_succ_iff.mp (by simpa using hi))]
    unfold prefMax
    rw [List.take_succ_cons, List.foldl_cons,
      max_eq_right (hnn x (List.mem_cons_self x xs))]

theorem buildRightMax_length (height : List Int) :
    (buildRightMax height).length = height.length := by
  unfold buildRightMax
  rw [List.length_reverse, buildLeftMax_length, List.length_reverse]

theorem buildRightMax_getD (height : List Int) (hnn : ∀ x ∈ height, 0 ≤ x)
    {i : Nat} (hi : i < height.length) :
    (buildRightMax height).getD i 0 = sufMax height i := by
  unfold buildRightMax
  have hlen : (buildLeftMax height.reverse).length = height.length := by
    rw [buildLeftMax_length, List.length_reverse]
  have hrevlen : (buildLeftMax height.reverse).reverse.length = height.length := by
    rw [List.length_reverse, hlen]
  rw [List.getD_eq_getElem _ 0 (by omega), List.getElem_reverse]
  rw [← List.getD_eq_getElem (buildLeftMax height.reverse) 0
    (by rw [hlen]; omega)]
  have hnnrev : ∀ x ∈ height.reverse, 0 ≤ x := by
    intro x hx; exact hnn x (List.mem_reverse.mp hx)
  rw [hlen]
  rw [buildLeftMax_getD height.reverse hnnrev
    (by rw [List.length_reverse]; omega)]
  unfold prefMax sufMax
  have hidx : height.length - 1 - i + 1 = height.reverse.length - i := by
    rw [List.length_reverse]; omega
  rw [hidx, List.take_reverse,
    show height.length - (height.reverse.length - i) = i by
      rw [List.length_reverse]; omega,
    foldl_max_reverse]

/-- `trap_dp` computes the specification sum `waterTotal` on non-negative
inputs. -/
theorem trap_dp_eq_waterTotal (height : List Int) (hnn : ∀ x ∈ height, 0 ≤ x) :
    trap_dp height = waterTotal height := by
  by_cases hg : height.length < 3
  · have hdp : trap_dp height = 0 := by simp [trap_dp, hg]
    rw [hdp, ← trap_eq_waterTotal height hnn]
    simp [trap, hg]
  · have hdp : trap_dp height =
        ((List.range height.length).map (fun i =>
          min ((buildLeftMax height).getD i 0) ((buildRightMax height).getD i 0)
            - height.getD i 0)).sum := by
      simp [trap_dp, hg]
    rw [hdp]
    unfold waterTotal
    congr 1
    refine List.map_congr_left ?_
    intro i hi
    have hilen : i < height.length := List.mem_range.mp hi
    rw [buildLeftMax_getD height hnn hilen, buildRightMax_getD height hnn hilen]
    rfl

/-! ## Claim C2 (corrected: restricted to non-negative inputs) -/

/-- C2, amended: for every list of NON-NEGATIVE integers, the O(1)-space
two-pointer `trap` returns the same value as the O(n)-space
dynamic-programming `trap_dp`.  (As frozen, the claim quantifies over all
integer lists and is refuted by `c2_counterexample`: on `[-1, -2, -3]` the
two functions return `5` and `0`.) -/
theorem c2_trap_eq_trap_dp (height : List Int) (hnn : ∀ x ∈ height, 0 ≤ x) :
    trap height = trap_dp height := by
  rw [trap_eq_waterTotal height hnn, trap_dp_eq_waterTotal height hnn]

/-- Witness for the amended C2 at a test vector of the source file. -/
theorem c2_trap_eq_trap_dp_witness :
    trap [4, 2, 0, 3, 2, 5] = trap_dp [4, 2, 0, 3, 2, 5] :=
  c2_trap_eq_trap_dp [4, 2, 0, 3, 2, 5] (by decide)

/-! ## Characterisation of `product_except_self` -/

theorem pass1_length (nums : List Int) :
    ∀ p : Int, (pass1 nums p).length = nums.length := by
  induction nums with
  | nil => intro p; rfl
  | cons x xs ih => intro p; simp [pass1, ih]

theorem pass1_getD (nums : List Int) :
    ∀ (p : Int) (i : Nat), i < nums.length →
      (pass1 nums p).getD i 0 = p * (nums.take i).prod := by
  induction nums with
  | nil => intro p i hi; simp at hi
  | cons x xs ih =>
    intro p i hi
    cases i with
    | zero => show p = p * 1
              ring
    | succ i =>
      show (pass1 xs (p * x)).getD i 0 = _
      rw [ih (p * x) i (by simpa using hi), List.take_succ_cons, List.prod_cons]
      ring

theorem pass2_length :
    ∀ (rs xs : List Int) (s : Int), rs.length = xs.length →
      (pass2 rs xs s).length = rs.length := by
  intro rs
  induction rs with
  | nil => intro xs s _; cases xs <;> rfl
  | cons r rs ih =>
    intro xs s hlen
    cases xs with
    | nil => simp at hlen
    | cons x xs =>
      show (pass2 rs xs (s * x)).length + 1 = rs.length + 1
      rw [ih xs (s * x) (by simpa using hlen)]

/-- Walking the reversed lists with a running suffix product, the entry that
ends up at position `i` is the corresponding `pass1` entry times the product
of the original elements strictly right of `i`. -/
theorem pass2_reverse_getD :
    ∀ (rr xr : List Int) (s : Int) (i : Nat), rr.length = xr.length →
      i < rr.length →
      (pass2 rr xr s).reverse.getD i 0 =
        rr.reverse.getD i 0 * (s * (xr.reverse.drop (i + 1)).prod) := by
  intro rr
  induction rr with
  | nil => intro xr s i _ hi; simp at hi
  | cons r rs ih =>
    intro xr s i hlen hi
    cases xr with
    | nil => simp at hlen
    | cons x xs =>
      have hm : rs.length = xs.length := by simpa using hlen
      have hp2len : (pass2 rs xs (s * x)).length = rs.length := pass2_length rs xs (s * x) hm
      rw [show pass2 (r :: rs) (x :: xs) s = (r * s) :: pass2 rs xs (s * x) from rfl]
      simp only [List.reverse_cons]
      by_cases hilt : i < rs.length
      · rw [List.getD_append _ _ 0 i (by rw [List.length_reverse, hp2len]; exact hilt),
          ih xs (s * x) i hm hilt,
          List.getD_append _ _ 0 i (by rw [List.length_reverse]; exact hilt),
          List.drop_append_of_le_length (by rw [List.length_reverse]; omega),
          List.prod_append, List.prod_singleton]
        ring
      · have hieq : i = rs.length := by
          have := hi
          simp only [List.length_cons] at this
          omega
        rw [List.getD_append_right _ _ 0 i (by rw [List.length_reverse, hp2len]; omega),
          List.getD_append_right _ _ 0 i (by rw [List.length_reverse]; omega),
          List.length_reverse, List.length_reverse, hp2len, hieq]
        have hdrop : (xs.reverse ++ [x]).drop (rs.length + 1) = [] := by
          refine List.drop_eq_nil_of_le ?_
          rw [List.length_append, List.length_reverse]
          simp [hm]
        rw [hdrop, List.prod_nil, Nat.sub_self]
        show r * s = r * (s * 1)
        ring

theorem pes_length (nums : List Int) :
    (product_except_self nums).length = nums.length := by
  unfold product_except_self
  rw [List.length_reverse,
    pass2_length _ _ 1 (by rw [List.length_reverse, List.length_reverse, pass1_length])]
  rw [List.length_reverse, pass1_length]

/-- The central fact about `product_except_self`: entry `i` is the product of
the elements strictly left of `i` times the product of those strictly right. -/
theorem pes_getD (nums : List Int) {i : Nat} (hi : i < nums.length) :
    (product_except_self nums).getD i 0 =
      (nums.take i).prod * (nums.drop (i + 1)).prod := by
  unfold product_except_self
  rw [pass2_reverse_getD (pass1 nums 1).reverse nums.reverse 1 i
    (by rw [List.length_reverse, List.length_reverse, pass1_length])
    (by rw [List.length_reverse, pass1_length]; exact hi)]
  rw [List.reverse_reverse, List.reverse_reverse, pass1_getD nums 1 i hi]
  ring

/-! ## Claim C4 -/

/-- C4: for every integer list of length ≥ 2, `product_except_self` returns a
list of the same length whose entry `i` is the product of all entries of the
input except the one at `i`.  The model (`pass1`/`pass2`), like the source,
computes this using multiplication only — no division occurs in the
definition. -/
theorem c4_product_except_self_correct (nums : List Int) (hlen : 2 ≤ nums.length) :
    (product_except_self nums).length = nums.length ∧
    ∀ i, i < nums.length →
      (product_except_self nums).getD i 0 = (nums.eraseIdx i).prod := by
  refine ⟨pes_length nums, ?_⟩
  intro i hi
  rw [pes_getD nums hi, List.eraseIdx_eq_take_drop_succ, List.prod_append]

/-- Witness for C4 at the first test vector of the source file. -/
theorem c4_product_except_self_correct_witness :
    (product_except_self [1, 2, 3, 4]).length = ([1, 2, 3, 4] : List Int).length ∧
    ∀ i, i < ([1, 2, 3, 4] : List Int).length →
      (product_except_self [1, 2, 3, 4]).getD i 0 =
        (([1, 2, 3, 4] : List Int).eraseIdx i).prod :=
  c4_product_except_self_correct [1, 2, 3, 4] (by decide)

/-! ## Claim C5 -/

/-- C5: with `result = product_except_self nums` and `nums` of length ≥ 2:
`result[i] * nums[i]` is the product of all of `nums` whenever no element
other than `nums[i]` is zero, and when `nums` has exactly one zero — at
position `k` — then `k` is the only position with a non-zero result. -/
theorem c5_product_except_self_algebra (nums : List Int) (hlen : 2 ≤ nums.length) :
    (∀ i, i < nums.length →
      (∀ j, j < nums.length → j ≠ i → nums.getD j 0 ≠ 0) →
      (product_except_self nums).getD i 0 * nums.getD i 0 = nums.prod) ∧
    (∀ k, k < nums.length → nums.getD k 0 = 0 →
      (∀ j, j < nums.length → j ≠ k → nums.getD j 0 ≠ 0) →
      (product_except_self nums).getD k 0 ≠ 0 ∧
      ∀ i, i < nums.length → i ≠ k → (product_except_self nums).getD i 0 = 0) := by
  constructor
  · intro i hi _
    rw [pes_getD nums hi]
    conv_rhs => rw [← List.take_append_drop i nums]
    rw [List.prod_append, List.drop_eq_getElem_cons hi, List.prod_cons,
      List.getD_eq_getElem nums 0 hi]
    ring
  · intro k hk hk0 hother
    constructor
    · rw [pes_getD nums hk]
      refine mul_ne_zero (List.prod_ne_zero ?_) (List.prod_ne_zero ?_)
      · intro hmem
        obtain ⟨j, hj, hval⟩ := List.mem_iff_getElem.mp hmem
        rw [List.length_take] at hj
        have hjk : j < k := by omega
        have hjn : j < nums.length := by omega
        rw [List.getElem_take] at hval
        exact hother j hjn (by omega)
          (by rw [List.getD_eq_getElem nums 0 hjn]; exact hval.symm ▸ hval)
      · intro hmem
        obtain ⟨j, hj, hval⟩ := List.mem_iff_getElem.mp hmem
        rw [List.length_drop] at hj
        have hjn : k + 1 + j < nums.length := by omega
        rw [List.getElem_drop] at hval
        exact hother (k + 1 + j) hjn (by omega)
          (by rw [List.getD_eq_getElem nums 0 hjn]; exact hval)
    · intro i hi hik
      rw [pes_getD nums hi]
      by_cases hki : k < i
      · refine mul_eq_zero_of_left (List.prod_eq_zero ?_) _
        refine List.mem_iff_getElem.mpr ⟨k, ?_, ?_⟩
        · rw [List.length_take]; omega
        · rw [List.getElem_take, ← List.getD_eq_getElem nums 0 hk]
          exact hk0
      · have hik' : i < k := by omega
        refine mul_eq_zero_of_right _ (List.prod_eq_zero ?_)
        refine List.mem_iff_getElem.mpr ⟨k - (i + 1), ?_, ?_⟩
        · rw [List.length_drop]; omega
        · rw [List.getElem_drop, ← List.getD_eq_getElem nums 0 (by omega)]
          rw [show i + 1 + (k - (i + 1)) = k by omega]
          exact hk0

/-- Witness for C5 at the test vector `[-1, 1, 0, -3, 3]` (one zero). -/
theorem c5_product_except_self_algebra_witness :
    (∀ i, i < ([-1, 1, 0, -3, 3] : List Int).length →
      (∀ j, j < ([-1, 1, 0, -3, 3] : List Int).length → j ≠ i →
        ([-1, 1, 0, -3, 3] : List Int).getD j 0 ≠ 0) →
      (product_except_self [-1, 1, 0, -3, 3]).getD i 0 *
        ([-1, 1, 0, -3, 3] : List Int).getD i 0 = ([-1, 1, 0, -3, 3] : List Int).prod) ∧
    (∀ k, k < ([-1, 1, 0, -3, 3] : List Int).length →
      ([-1, 1, 0, -3, 3] : List Int).getD k 0 = 0 →
      (∀ j, j < ([-1, 1, 0, -3, 3] : List Int).length → j ≠ k →
        ([-1, 1, 0, -3, 3] : List Int).getD j 0 ≠ 0) →
      (product_except_self [-1, 1, 0, -3, 3]).getD k 0 ≠ 0 ∧
      ∀ i, i < ([-1, 1, 0, -3, 3] : List Int).length → i ≠ k →
        (product_except_self [-1, 1, 0, -3, 3]).getD i 0 = 0) :=
  c5_product_except_self_algebra [-1, 1, 0, -3, 3] (by decide)

/-! ## Characterisation of `product_except_self_with_arrays` -/

theorem runProd_length (xs : List Int) :
    ∀ a : Int, (runProd a xs).length = xs.length + 1 := by
  induction xs with
  | nil => intro a; rfl
  | cons x xs ih => intro a; simp [runProd, ih]

theorem runProd_getD (xs : List Int) :
    ∀ (a : Int) (i : Nat), i ≤ xs.length →
      (runProd a xs).getD i 0 = a * (xs.take i).prod := by
  induction xs with
  | nil =>
    intro a i hi
    have h0 : i = 0 := Nat.le_zero.mp (by simpa using hi)
    subst h0
    show a = a * 1
    ring
  | cons x xs ih =>
    intro a i hi
    cases i with
    | zero => show a = a * 1
              ring
    | succ i =>
      show (runProd (a * x) xs).getD i 0 = _
      rw [ih (a * x) i (by simpa using hi), List.take_succ_cons, List.prod_cons]
      ring

theorem prefixArr_length (nums : List Int) :
    (prefixArr nums).length = nums.length := by
  cases nums with
  | nil => rfl
  | cons x xs =>
    show (runProd 1 (x :: xs).dropLast).length = xs.length + 1
    rw [runProd_length, List.length_dropLast, List.length_cons]
    omega

theorem prefixArr_getD (nums : List Int) {i : Nat} (hi : i < nums.length) :
    (prefixArr nums).getD i 0 = (nums.take i).prod := by
  cases nums with
  | nil => simp at hi
  | cons x xs =>
    show (runProd 1 (x :: xs).dropLast).getD i 0 = _
    rw [runProd_getD _ 1 i
      (by simp only [List.length_dropLast, List.length_cons] at hi ⊢; omega)]
    rw [List.dropLast_eq_take, List.take_take,
      min_eq_left (by simp only [List.length_cons] at hi ⊢; omega)]
    ring

theorem suffixArr_length (nums : List Int) :
    (suffixArr nums).length = nums.length := by
  cases nums with
  | nil => rfl
  | cons x xs =>
    show (runProd 1 ((x :: xs).drop 1).reverse).reverse.length = xs.length + 1
    rw [List.length_reverse, runProd_length, List.length_reverse]
    rfl

theorem suffixArr_getD (nums : List Int) {i : Nat} (hi : i < nums.length) :
    (suffixArr nums).getD i 0 = (nums.drop (i + 1)).prod := by
  cases nums with
  | nil => simp at hi
  | cons x xs =>
    set l := x :: xs with hl
    have hlpos : 0 < l.length := by simp [hl]
    show (runProd 1 (l.drop 1).reverse).reverse.getD i 0 = _
    have hinner : (runProd 1 (l.drop 1).reverse).length = l.length := by
      rw [runProd_length, List.length_reverse, List.length_drop]
      omega
    rw [List.getD_eq_getElem _ 0 (by rw [List.length_reverse, hinner]; exact hi),
      List.getElem_reverse,
      ← List.getD_eq_getElem (runProd 1 (l.drop 1).reverse) 0
        (by rw [hinner]; omega),
      hinner]
    rw [runProd_getD _ 1 (l.length - 1 - i)
      (by rw [List.length_reverse, List.length_drop]; omega)]
    rw [List.take_reverse, List.length_drop]
    rw [show l.length - 1 - (l.length - 1 - i) = i by omega]
    rw [List.drop_drop, List.prod_reverse]
    rw [show 1 + i = i + 1 by omega]
    ring

/-! ## Claim C10 -/

/-- C10: for every integer list, the O(1)-extra-space `product_except_self`
and the O(n)-space `product_except_self_with_arrays` return identical lists:
both have entry `i` equal to the product of the elements strictly left of `i`
times the product of those strictly right. -/
theorem peswa_length (nums : List Int) :
    (product_except_self_with_arrays nums).length = nums.length := by
  unfold product_except_self_with_arrays
  rw [List.length_zipWith, prefixArr_length, suffixArr_length, min_self]

theorem peswa_getD (nums : List Int) {i : Nat} (hi : i < nums.length) :
    (product_except_self_with_arrays nums).getD i 0 =
      (nums.take i).prod * (nums.drop (i + 1)).prod := by
  unfold product_except_self_with_arrays
  have hz : i < (List.zipWith (fun a b => a * b) (prefixArr nums) (suffixArr nums)).length := by
    rw [List.length_zipWith, prefixArr_length, suffixArr_length, min_self]
    exact hi
  rw [List.getD_eq_getElem _ 0 hz, List.getElem_zipWith,
    ← List.getD_eq_getElem (prefixArr nums) 0 (by rw [prefixArr_length]; exact hi),
    ← List.getD_eq_getElem (suffixArr nums) 0 (by rw [suffixArr_length]; exact hi),
    prefixArr_getD nums hi, suffixArr_getD nums hi]

theorem c10_product_except_self_refines (nums : List Int) :
    product_except_self nums = product_except_self_with_arrays nums := by
  have hlen1 : (product_except_self nums).length = nums.length := pes_length nums
  have hlen2 : (product_except_self_with_arrays nums).length = nums.length :=
    peswa_length nums
  refine List.ext_getElem (by rw [hlen1, hlen2]) ?_
  intro i h1 h2
  have hi : i < nums.length := by omega
  rw [← List.getD_eq_getElem (product_except_self nums) 0 h1,
    ← List.getD_eq_getElem (product_except_self_with_arrays nums) 0 h2,
    pes_getD nums hi, peswa_getD nums hi]

/-! ## Correctness of `two_sum` -/

/-- Invariant proof for the `two_sum` scan: if `seen` records only values at
indices before `i` (the index of the head of the remaining suffix), then the
scan either returns a valid pair `[a, b]` with `a < b`, `b` in range and
`nums[a] + nums[b] = target`, or returns `[]`. -/
theorem twoSumGo_spec (nums : List Int) (target : Int) :
    ∀ (xs : List Int) (i : Nat) (seen : Int → Option Nat),
      xs = nums.drop i → i ≤ nums.length →
      (∀ v k, seen v = some k → k < i ∧ k < nums.length ∧ nums.getD k 0 = v) →
      (∃ a b, twoSumGo target xs seen i = [a, b] ∧ a < b ∧ b < nums.length ∧
        nums.getD a 0 + nums.getD b 0 = target) ∨
      twoSumGo target xs seen i = [] := by
  intro xs
  induction xs with
  | nil => intro i seen _ _ _; exact Or.inr rfl
  | cons x rest ih =>
    intro i seen hdrop hle hinv
    have hin : i < nums.length := by
      by_contra hcon
      rw [List.drop_eq_nil_of_le (by omega)] at hdrop
      simp at hdrop
    have hcons := hdrop.trans (List.drop_eq_getElem_cons hin)
    injection hcons with hx hrest
    cases hseen : seen (target - x) with
    | some j =>
      simp only [twoSumGo, hseen]
      obtain ⟨hji, hjn, hjval⟩ := hinv _ _ hseen
      refine Or.inl ⟨j, i, rfl, hji, hin, ?_⟩
      rw [hjval, List.getD_eq_getElem nums 0 hin, ← hx]
      ring
    | none =>
      simp only [twoSumGo, hseen]
      refine ih (i + 1) _ hrest (by omega) ?_
      intro v k hvk
      by_cases hvx : v = x
      · rw [if_pos hvx] at hvk
        injection hvk with hki
        subst hki
        exact ⟨by omega, hin, by rw [List.getD_eq_getElem nums 0 hin, ← hx, hvx]⟩
      · rw [if_neg hvx] at hvk
        obtain ⟨h1, h2, h3⟩ := hinv v k hvk
        exact ⟨by omega, h2, h3⟩

/-! ## Claim C6 -/

/-- C6: whenever `two_sum nums target` returns a non-empty result `[i, j]`,
then `nums[i] + nums[j] = target`, `i ≠ j`, and `i < j` (the earlier index of
the first-found complement pair comes first). -/
theorem c6_two_sum_sound (nums : List Int) (target : Int) (i j : Nat)
    (hret : two_sum nums target = [i, j]) :
    nums.getD i 0 + nums.getD j 0 = target ∧ i ≠ j ∧ i < j := by
  have hspec := twoSumGo_spec nums target nums 0 (fun _ => none) rfl (by omega)
    (by intro v k h; simp at h)
  unfold two_sum at hret
  rcases hspec with ⟨a, b, heq, hab, _, hsum⟩ | hnil
  · have hpair := heq.symm.trans hret
    injection hpair with ha htail
    injection htail with hb _
    subst ha
    subst hb
    exact ⟨hsum, by omega, hab⟩
  · rw [hnil] at hret
    simp at hret

/-- Witness for C6 at the first test vector of the source file. -/
theorem c6_two_sum_sound_witness :
    ([2, 7, 11, 15] : List Int).getD 0 0 + ([2, 7, 11, 15] : List Int).getD 1 0 = 9 ∧
    (0 : Nat) ≠ 1 ∧ (0 : Nat) < 1 :=
  c6_two_sum_sound [2, 7, 11, 15] 9 0 1 (by decide)

/-! ## Claim C7 -/

/-- C7: when no pair of distinct positions sums to the target, `two_sum`
returns the empty list (the model is a total function, so no exception can be
raised). -/
theorem c7_two_sum_no_pair (nums : List Int) (target : Int)
    (hno : ∀ i j, i < j → j < nums.length →
      nums.getD i 0 + nums.getD j 0 ≠ target) :
    two_sum nums target = [] := by
  have hspec := twoSumGo_spec nums target nums 0 (fun _ => none) rfl (by omega)
    (by intro v k h; simp at h)
  rcases hspec with ⟨a, b, heq, hab, hbn, hsum⟩ | hnil
  · exact absurd hsum (hno a b hab hbn)
  · exact hnil

/-- Witness for C7: `[3, 4]` has no pair summing to `0`. -/
theorem c7_two_sum_no_pair_witness : two_sum [3, 4] 0 = [] :=
  c7_two_sum_no_pair [3, 4] 0 (by
    intro i j hij hjn
    simp only [List.length_cons, List.length_nil] at hjn
    have hj1 : j = 1 := by omega
    have hi0 : i = 0 := by omega
    subst hj1
    subst hi0
    decide)

/-! ## Correctness of `move_zeroes` -/

/-- Two lists agreeing from position `w` on agree at every position `≥ w`. -/
theorem getD_eq_of_drop_eq (l1 l2 : List Int) (w r : Nat)
    (hd : l1.drop w = l2.drop w) (hw : w ≤ r) (hr : r < l1.length)
    (hr2 : r < l2.length) : l1.getD r 0 = l2.getD r 0 := by
  have h1 : r - w < (l1.drop w).length := by rw [List.length_drop]; omega
  have h2 : r - w < (l2.drop w).length := by rw [List.length_drop]; omega
  have e1 : (l1.drop w).getD (r - w) 0 = l1.getD (w + (r - w)) 0 := by
    rw [List.getD_eq_getElem _ 0 h1, List.getD_eq_getElem l1 0 (by omega),
      List.getElem_drop]
  have e2 : (l2.drop w).getD (r - w) 0 = l2.getD (w + (r - w)) 0 := by
    rw [List.getD_eq_getElem _ 0 h2, List.getD_eq_getElem l2 0 (by omega),
      List.getElem_drop]
  have hidx : w + (r - w) = r := by omega
  rw [hidx] at e1 e2
  rw [← e1, ← e2, hd]

theorem set_take_succ (l : List Int) (w : Nat) (v : Int) (hw : w < l.length) :
    (l.set w v).take (w + 1) = l.take w ++ [v] := by
  rw [List.set_eq_take_append_cons_drop, if_pos hw]
  rw [show w + 1 = (l.take w).length + 1 by rw [List.length_take]; omega]
  rw [List.take_append]
  rfl

theorem set_drop_succ (l : List Int) (w : Nat) (v : Int) (hw : w < l.length) :
    (l.set w v).drop (w + 1) = l.drop (w + 1) := by
  rw [List.set_eq_take_append_cons_drop, if_pos hw]
  rw [show w + 1 = (l.take w).length + 1 by rw [List.length_take]; omega]
  rw [List.drop_append]
  rfl

/-- Invariant of the first `move_zeroes` pass after processing the reads
`0..r-1`: length preserved, the prefix up to `write_pos` holds exactly the
non-zero elements read so far in their original order, and the positions from
`write_pos` on still hold their original values. -/
def mzInv (nums : List Int) (r : Nat) (st : List Int × Nat) : Prop :=
  st.1.length = nums.length ∧
  st.1.take st.2 = (nums.take r).filter (fun a => a ≠ 0) ∧
  st.2 = ((nums.take r).filter (fun a => a ≠ 0)).length ∧
  st.1.drop st.2 = nums.drop st.2 ∧
  st.2 ≤ r

theorem mzPass1_inv (nums : List Int) :
    ∀ r, r ≤ nums.length → mzInv nums r ((List.range r).foldl mzStep (nums, 0)) := by
  intro r
  induction r with
  | zero =>
    intro _
    exact ⟨rfl, rfl, rfl, rfl, le_refl 0⟩
  | succ r ih =>
    intro hr1
    have hrn : r < nums.length := by omega
    rw [List.range_succ, List.foldl_append, List.foldl_cons, List.foldl_nil]
    obtain ⟨hlen, htake, hw, hdrop, hwr⟩ := ih (by omega)
    set st := (List.range r).foldl mzStep (nums, 0) with hst
    have hread : st.1.getD r 0 = nums.getD r 0 :=
      getD_eq_of_drop_eq st.1 nums st.2 r hdrop (by omega) (by omega) hrn
    have hwlt : st.2 < st.1.length := by omega
    unfold mzStep
    rw [hread]
    by_cases hv : nums.getD r 0 ≠ 0
    · rw [if_pos hv]
      refine ⟨?_, ?_, ?_, ?_, ?_⟩
      · rw [List.length_set]; exact hlen
      · show (st.1.set st.2 (nums.getD r 0)).take (st.2 + 1) = _
        rw [set_take_succ st.1 st.2 _ hwlt, htake, List.take_succ,
          List.getElem?_eq_getElem hrn, Option.toList_some, List.filter_append,
          ← List.getD_eq_getElem nums 0 hrn,
          List.filter_cons_of_pos (by simpa using hv), List.filter_nil]
      · show st.2 + 1 = _
        rw [hw, List.take_succ, List.getElem?_eq_getElem hrn, Option.toList_some,
          List.filter_append, ← List.getD_eq_getElem nums 0 hrn,
          List.filter_cons_of_pos (by simpa using hv), List.filter_nil,
          List.length_append]
        rfl
      · show (st.1.set st.2 (nums.getD r 0)).drop (st.2 + 1) = _
        rw [set_drop_succ st.1 st.2 _ hwlt]
        calc st.1.drop (st.2 + 1) = (st.1.drop st.2).drop 1 :=
              (List.drop_drop 1 st.2 st.1).symm
          _ = (nums.drop st.2).drop 1 := by rw [hdrop]
          _ = nums.drop (st.2 + 1) := List.drop_drop 1 st.2 nums
      · show st.2 + 1 ≤ r + 1
        omega
    · rw [if_neg hv]
      push_neg at hv
      have hfilter : (nums.take (r + 1)).filter (fun a => a ≠ 0) =
          (nums.take r).filter (fun a => a ≠ 0) := by
        rw [List.take_succ, List.getElem?_eq_getElem hrn, Option.toList_some,
          List.filter_append, ← List.getD_eq_getElem nums 0 hrn,
          List.filter_cons_of_neg (by simpa using hv), List.filter_nil,
          List.append_nil]
      exact ⟨hlen, by rw [hfilter]; exact htake, by rw [hfilter]; exact hw,
        hdrop, by omega⟩

/-- The second pass writes `0` at every position from `s` to the end. -/
theorem mzPass2_fill :
    ∀ (k s : Nat) (c : List Int), s + k = c.length →
      (List.range' s k).foldl (fun cur i => cur.set i 0) c =
        c.take s ++ List.replicate k 0 := by
  intro k
  induction k with
  | zero =>
    intro s c hs
    rw [List.range'_zero, List.foldl_nil, List.replicate_zero, List.append_nil,
      List.take_of_length_le (by omega)]
  | succ k ih =>
    intro s c hs
    rw [List.range'_succ, List.foldl_cons,
      ih (s + 1) (c.set s 0) (by rw [List.length_set]; omega),
      set_take_succ c s 0 (by omega), List.replicate_succ, List.append_assoc]
    rfl

/-- `move_zeroes` keeps the non-zero elements in order at the front and pads
with the corresponding number of zeros. -/
theorem move_zeroes_eq (nums : List Int) :
    move_zeroes nums = nums.filter (fun a => a ≠ 0) ++
      List.replicate (nums.length - (nums.filter (fun a => a ≠ 0)).length) 0 := by
  obtain ⟨hlen, htake, hw, hdrop, hwr⟩ := mzPass1_inv nums nums.length (le_refl _)
  rw [List.take_length] at htake hw
  show mzPass2 ((List.range nums.length).foldl mzStep (nums, 0)) = _
  set st := (List.range nums.length).foldl mzStep (nums, 0) with hst
  show (List.range' st.2 (st.1.length - st.2)).foldl (fun cur i => cur.set i 0) st.1 = _
  rw [mzPass2_fill (st.1.length - st.2) st.2 st.1 (by omega), htake, hw, hlen]

theorem length_filter_not_add (p : Int → Bool) (l : List Int) :
    (l.filter (fun a => !(p a))).length + (l.filter p).length = l.length := by
  induction l with
  | nil => rfl
  | cons x xs ih =>
    cases hpx : p x <;> simp [List.filter_cons, hpx] <;> omega

/-- The padding zeros are exactly the zero elements of the input. -/
theorem replicate_zeros_eq_filter (nums : List Int) :
    nums.filter (fun a => !(decide (a ≠ 0))) =
      List.replicate (nums.length - (nums.filter (fun a => a ≠ 0)).length) 0 := by
  rw [List.eq_replicate_iff]
  constructor
  · have := length_filter_not_add (fun a => decide (a ≠ 0)) nums
    omega
  · intro b hb
    have := List.mem_filter.mp hb
    simpa using this.2

/-! ## Claim C8 -/

/-- C8: for every integer list of length ≥ 1, `move_zeroes` preserves the
length, permutes the original contents, keeps the non-zero elements in their
original relative order, and places every zero after every non-zero element
(once a zero appears, every later entry is zero). -/
theorem c8_move_zeroes_correct (nums : List Int) (hlen : 1 ≤ nums.length) :
    (move_zeroes nums).length = nums.length ∧
    (move_zeroes nums).Perm nums ∧
    (move_zeroes nums).filter (fun a => a ≠ 0) = nums.filter (fun a => a ≠ 0) ∧
    ∀ i j, i < j → j < (move_zeroes nums).length →
      (move_zeroes nums).getD i 0 = 0 → (move_zeroes nums).getD j 0 = 0 := by
  have hfle : (nums.filter (fun a => a ≠ 0)).length ≤ nums.length :=
    List.length_filter_le _ nums
  refine ⟨?_, ?_, ?_, ?_⟩
  · rw [move_zeroes_eq, List.length_append, List.length_replicate]
    omega
  · rw [move_zeroes_eq, ← replicate_zeros_eq_filter]
    exact List.filter_append_perm _ nums
  · rw [move_zeroes_eq, List.filter_append]
    have h1 : (nums.filter (fun a => a ≠ 0)).filter (fun a => a ≠ 0) =
        nums.filter (fun a => a ≠ 0) :=
      List.filter_eq_self.mpr (fun a ha => (List.mem_filter.mp ha).2)
    have h2 : (List.replicate (nums.length - (nums.filter (fun a => a ≠ 0)).length)
        ((0 : Int))).filter (fun a => a ≠ 0) = [] := by
      refine List.filter_eq_nil_iff.mpr ?_
      intro a ha
      have h0 : a = 0 := (List.mem_replicate.mp ha).2
      simp [h0]
    rw [h1, h2, List.append_nil]
  · intro i j hij hjlen hi0
    rw [move_zeroes_eq] at hjlen hi0 ⊢
    rw [List.length_append, List.length_replicate] at hjlen
    have hile : (nums.filter (fun a => a ≠ 0)).length ≤ i := by
      by_contra hcon
      push_neg at hcon
      rw [List.getD_append _ _ 0 i hcon] at hi0
      have hmem : (nums.filter (fun a => a ≠ 0)).getD i 0 ∈
          nums.filter (fun a => a ≠ 0) := by
        rw [List.getD_eq_getElem _ 0 hcon]
        exact List.getElem_mem hcon
      have := (List.mem_filter.mp hmem).2
      rw [hi0] at this
      simp at this
    rw [List.getD_append_right _ _ 0 j (by omega)]
    rw [List.getD_eq_getElem _ 0
      (by rw [List.length_replicate]; omega)]
    exact List.getElem_replicate 0 _

/-- Witness for C8 at the first test vector of the source file. -/
theorem c8_move_zeroes_correct_witness :
    (move_zeroes [0, 1, 0, 3, 12]).length = ([0, 1, 0, 3, 12] : List Int).length ∧
    (move_zeroes [0, 1, 0, 3, 12]).Perm [0, 1, 0, 3, 12] ∧
    (move_zeroes [0, 1, 0, 3, 12]).filter (fun a => a ≠ 0) =
      ([0, 1, 0, 3, 12] : List Int).filter (fun a => a ≠ 0) ∧
    ∀ i j, i < j → j < (move_zeroes [0, 1, 0, 3, 12]).length →
      (move_zeroes [0, 1, 0, 3, 12]).getD i 0 = 0 →
      (move_zeroes [0, 1, 0, 3, 12]).getD j 0 = 0 :=
  c8_move_zeroes_correct [0, 1, 0, 3, 12] (by decide)

end Week1
